import Mathlib

/-!
Verification development for the Tag-Finder tag store (src/tagManager.ts).

The TypeScript class TagManager keeps two insertion-ordered maps
(JavaScript Map objects): tags, keyed by tag id, and groups, keyed by
group id.  We embed them as association lists of (key, value) pairs in
insertion order; the operations below mirror the JavaScript Map methods
get / set / delete / values and the public methods of TagManager.
Interactive prompts (replace confirmation, cleanup choices) and the
environment (fresh ids, clock, current user, filesystem existence) are
passed as explicit parameters.
-/

namespace TagFinder

/-- One entry map models a JavaScript Map of string keys: an association
list in insertion order. -/
abbrev EntryMap (α : Type) := List (String × α)

/-- Map.get: value at the first entry with the given key. -/
def mapGet {α : Type} (m : EntryMap α) (k : String) : Option α :=
  match m with
  | [] => none
  | e :: rest => if e.1 = k then some e.2 else mapGet rest k

/-- Map.has: whether some entry carries the key. -/
def mapHasKey {α : Type} (m : EntryMap α) (k : String) : Bool :=
  m.any (fun e => e.1 == k)

/-- Map.set: replace the value in place when the key is present
(preserving insertion order), otherwise append a new entry. -/
def mapSet {α : Type} (m : EntryMap α) (k : String) (v : α) : EntryMap α :=
  if mapHasKey m k then m.map (fun e => if e.1 = k then (k, v) else e)
  else m ++ [(k, v)]

/-- Map.delete: drop every entry with the key. -/
def mapDelete {α : Type} (m : EntryMap α) (k : String) : EntryMap α :=
  m.filter (fun e => e.1 != k)

/-- Map.values: the values in insertion order. -/
def mapValues {α : Type} (m : EntryMap α) : List α :=
  m.map Prod.snd

/-- Map.size. -/
def mapSize {α : Type} (m : EntryMap α) : Nat :=
  m.length

/-- Array.prototype.find / the for-of search loops in the source:
first element satisfying the predicate. -/
def findFirst {α : Type} (p : α → Bool) : List α → Option α
  | [] => none
  | a :: rest => if p a then some a else findFirst p rest

/-- interface TagItem (src/tagManager.ts, lines 5-15). -/
structure TagItem where
  id : String
  name : String
  filePath : String
  group : String
  description : Option String
  createdAt : Nat
  createdBy : Option String
  lastModified : Option Nat
  lastModifiedBy : Option String
deriving DecidableEq, Repr

/-- interface TagGroup (lines 17-21): a group carries a denormalized
copy of its tags. -/
structure TagGroup where
  id : String
  name : String
  tags : List TagItem
deriving DecidableEq, Repr

/-- interface TagDatabase (lines 23-28): the persisted snapshot. -/
structure TagDatabase where
  tags : List TagItem
  groups : List TagGroup
  version : Nat
  lastSync : Nat
deriving DecidableEq, Repr

/-- The mutable state of class TagManager: the two maps. -/
structure TagManager where
  tags : EntryMap TagItem
  groups : EntryMap TagGroup
deriving DecidableEq, Repr

/-- isTagNameExists (lines 218-225): some tag other than the excluded id
has exactly this name (case-sensitive string equality). -/
def isTagNameExists (s : TagManager) (tagName : String)
    (excludeTagId : Option String) : Bool :=
  (mapValues s.tags).any (fun tag =>
    tag.name == tagName &&
      (match excludeTagId with
       | none => true
       | some e => tag.id != e))

/-- getTagForFile (lines 228-235): first tag whose filePath equals the
argument exactly. -/
def getTagForFile (s : TagManager) (filePath : String) : Option TagItem :=
  findFirst (fun tag => tag.filePath == filePath) (mapValues s.tags)

/-- removeTag (lines 300-315): failure when the id is unknown; otherwise
remove the tag from its group list and from the global map. -/
def removeTag (s : TagManager) (tagId : String) : Bool × TagManager :=
  match mapGet s.tags tagId with
  | none => (false, s)
  | some tag =>
    let groups1 :=
      match mapGet s.groups tag.group with
      | some g => mapSet s.groups tag.group
          { g with tags := g.tags.filter (fun t => t.id != tagId) }
      | none => s.groups
    (true, { tags := mapDelete s.tags tagId, groups := groups1 })

/-- The tag record built by addTag (lines 276-286). -/
def newTag (filePath tagName groupId : String) (description : Option String)
    (freshId : String) (now : Nat) (currentUser : String) : TagItem :=
  { id := freshId, name := tagName, filePath := filePath,
    group := groupId, description := description, createdAt := now,
    createdBy := some currentUser, lastModified := some now,
    lastModifiedBy := some currentUser }

/-- addTag (lines 242-298).  The interactive replace prompt is the
replaceChoice parameter (true = the user picked replace); freshId, now
and currentUser stand for Date.now-based id generation, the clock and
the process user. -/
def addTag (s : TagManager) (filePath tagName groupId : String)
    (description : Option String) (freshId : String) (now : Nat)
    (currentUser : String) (replaceChoice : Bool) :
    Option TagItem × TagManager :=
  if isTagNameExists s tagName none then (none, s)
  else
    let afterReplace : Option TagManager :=
      match getTagForFile s filePath with
      | some existingTag =>
          if replaceChoice then some (removeTag s existingTag.id).2 else none
      | none => some s
    match afterReplace with
    | none => (none, s)
    | some s1 =>
      let tag := newTag filePath tagName groupId description freshId now currentUser
      let tags1 := mapSet s1.tags freshId tag
      let groups1 :=
        match mapGet s1.groups groupId with
        | some g => mapSet s1.groups groupId { g with tags := g.tags ++ [tag] }
        | none => s1.groups
      (some tag, { tags := tags1, groups := groups1 })

/-- Array.prototype.findIndex (line 346), with the not-found -1 result
modelled as none. -/
def findIndexOpt {α : Type} (p : α → Bool) : List α → Option Nat
  | [] => none
  | a :: rest => if p a then some 0 else (findIndexOpt p rest).map (· + 1)

/-- The in-place mutation of the tag record in editTag (lines 336-341):
new name, description only when one is supplied, refreshed modification
metadata. -/
def editedTag (tag : TagItem) (newName : String)
    (newDescription : Option String) (now : Nat) (currentUser : String) :
    TagItem :=
  { tag with
      name := newName,
      description :=
        match newDescription with
        | some d => some d
        | none => tag.description,
      lastModified := some now,
      lastModifiedBy := some currentUser }

/-- editTag (lines 317-354): failure when the id is unknown or the new
name collides with a different tag; otherwise mutate name, optionally
description, and the modification metadata, and replace the denormalized
copy inside the owning group when it is found there. -/
def editTag (s : TagManager) (tagId newName : String)
    (newDescription : Option String) (now : Nat) (currentUser : String) :
    Bool × TagManager :=
  match mapGet s.tags tagId with
  | none => (false, s)
  | some tag =>
    if isTagNameExists s newName (some tagId) then (false, s)
    else
      let tag1 := editedTag tag newName newDescription now currentUser
      let tags1 := mapSet s.tags tagId tag1
      let groups1 :=
        match mapGet s.groups tag1.group with
        | some g =>
          match findIndexOpt (fun t => t.id == tagId) g.tags with
          | some i => mapSet s.groups tag1.group { g with tags := g.tags.set i tag1 }
          | none => s.groups
        | none => s.groups
      (true, { tags := tags1, groups := groups1 })

/-- createGroup (lines 356-367). -/
def createGroup (s : TagManager) (name freshId : String) :
    TagGroup × TagManager :=
  let group : TagGroup := { id := freshId, name := name, tags := [] }
  (group, { s with groups := mapSet s.groups freshId group })

/-- removeGroup (lines 369-383): delete every tag listed in the group
from the global map, then delete the group. -/
def removeGroup (s : TagManager) (groupId : String) : Bool × TagManager :=
  match mapGet s.groups groupId with
  | none => (false, s)
  | some group =>
    let tags1 := group.tags.foldl (fun m t => mapDelete m t.id) s.tags
    (true, { tags := tags1, groups := mapDelete s.groups groupId })

/-- String.prototype.toLowerCase, restricted to the per-character
lowering that Lean provides. -/
def jsToLower (str : String) : String :=
  str.map Char.toLower

/-- Character-list test that hay starts with need (the anchored part of
String.prototype.includes). -/
def startsWithChars : List Char → List Char → Bool
  | [], _ => true
  | _ :: _, [] => false
  | a :: as, b :: bs => a == b && startsWithChars as bs

/-- List-level substring test behind String.prototype.includes. -/
def includesFrom (hay need : List Char) : Bool :=
  match hay with
  | [] => need.isEmpty
  | _ :: rest => startsWithChars need hay || includesFrom rest need

/-- String.prototype.includes. -/
def jsIncludes (hay need : String) : Bool :=
  includesFrom hay.toList need.toList

/-- path.basename for posix-style paths: last non-empty component, or
the whole string when there is none. -/
def basename (p : String) : String :=
  match ((p.splitOn "/").filter (fun part => part != "")).getLast? with
  | some b => b
  | none => p

/-- searchTags (lines 385-393): case-insensitive substring match against
name, description (when present) or file basename, filtered over the map
values in insertion order. -/
def searchTags (s : TagManager) (query : String) : List TagItem :=
  let lowerQuery := jsToLower query
  (mapValues s.tags).filter (fun tag =>
    jsIncludes (jsToLower tag.name) lowerQuery ||
    (match tag.description with
     | some d => jsIncludes (jsToLower d) lowerQuery
     | none => false) ||
    jsIncludes (jsToLower (basename tag.filePath)) lowerQuery)

/-- getTagsForFile (lines 412-416). -/
def getTagsForFile (s : TagManager) (filePath : String) : List TagItem :=
  (mapValues s.tags).filter (fun tag => tag.filePath == filePath)

/-- saveToWorkspace (lines 148-175): the snapshot written to the shared
file, with the fixed schema version 1 and the current time as lastSync. -/
def saveToWorkspace (s : TagManager) (now : Nat) : TagDatabase :=
  { tags := mapValues s.tags, groups := mapValues s.groups,
    version := 1, lastSync := now }

/-- loadFromWorkspace (lines 117-146): clear both maps, re-insert every
tag and group keyed by its id, and create a default group when none was
loaded.  freshGroupId stands for the id createGroup would generate. -/
def loadFromWorkspace (db : TagDatabase) (freshGroupId : String) :
    TagManager :=
  let tags1 := db.tags.foldl (fun m t => mapSet m t.id t) []
  let groups1 := db.groups.foldl (fun m g => mapSet m g.id g) []
  let s : TagManager := { tags := tags1, groups := groups1 }
  if mapSize groups1 == 0 then (createGroup s "默认分组" freshGroupId).2
  else s

/-- The three top-level answers to the cleanup prompt (lines 470-475);
confirmEach carries the per-tag answers of the inner prompt. -/
inductive ConfirmChoice : Type
  | del
  | keep
  | cancelAll
deriving DecidableEq, Repr

/-- Answer to the first cleanup prompt: delete all, confirm one by one
(with the per-tag decision function), or cancel. -/
inductive CleanupChoice : Type
  | deleteAll
  | confirmEach (dec : TagItem → ConfirmChoice)
  | cancel

/-- The confirm-individually loop of cleanupInvalidTags (lines 482-499):
delete on del, skip on keep, stop on cancelAll; returns the count of
tags removed. -/
def cleanupLoop (s : TagManager) (pending : List TagItem)
    (dec : TagItem → ConfirmChoice) : Nat × TagManager :=
  match pending with
  | [] => (0, s)
  | t :: rest =>
    match dec t with
    | ConfirmChoice.del =>
      let s1 := (removeTag s t.id).2
      let r := cleanupLoop s1 rest dec
      (r.1 + 1, r.2)
    | ConfirmChoice.keep => cleanupLoop s rest dec
    | ConfirmChoice.cancelAll => (0, s)

/-- The scan loop of cleanupInvalidTags (lines 461-467): the tags whose
file no longer exists on disk, in map order. -/
def invalidTags (s : TagManager) (fsExists : String → Bool) : List TagItem :=
  (mapValues s.tags).filter (fun tag => !fsExists tag.filePath)

/-- cleanupInvalidTags (lines 460-504).  fsExists stands for
fs.existsSync; the user choices are explicit parameters. -/
def cleanupInvalidTags (s : TagManager) (fsExists : String → Bool)
    (choice : CleanupChoice) : Nat × TagManager :=
  let invalid := invalidTags s fsExists
  if invalid.length > 0 then
    match choice with
    | CleanupChoice.deleteAll =>
      let s1 := invalid.foldl (fun st t => (removeTag st t.id).2) s
      (invalid.length, s1)
    | CleanupChoice.confirmEach dec => cleanupLoop s invalid dec
    | CleanupChoice.cancel => (0, s)
  else (0, s)

/-! ## Generic facts about the map embedding -/

theorem mapGet_eq_none_iff {α : Type} (m : EntryMap α) (k : String) :
    mapGet m k = none ↔ ∀ e ∈ m, e.1 ≠ k := by
  induction m with
  | nil => simp [mapGet]
  | cons e rest ih =>
    by_cases h : e.1 = k
    · simp [mapGet, h]
    · simp [mapGet, h, ih]

theorem mapHasKey_eq_false_iff {α : Type} (m : EntryMap α) (k : String) :
    mapHasKey m k = false ↔ mapGet m k = none := by
  rw [mapGet_eq_none_iff]
  simp [mapHasKey]

theorem mapSet_fresh {α : Type} {m : EntryMap α} {k : String}
    (hget : mapGet m k = none) (v : α) :
    mapSet m k v = m ++ [(k, v)] := by
  have h := (mapHasKey_eq_false_iff m k).2 hget
  simp [mapSet, h]

theorem map_keep_of_ne {α : Type} (l : EntryMap α) (k : String) (v : α)
    (h : ∀ e ∈ l, e.1 ≠ k) :
    l.map (fun e => if e.1 = k then (k, v) else e) = l := by
  induction l with
  | nil => rfl
  | cons e rest ih =>
    have he : e.1 ≠ k := h e (by simp)
    simp [he, ih (fun x hx => h x (by simp [hx]))]

theorem get_decomp {α : Type} {m : EntryMap α} {k : String} {w : α}
    (hget : mapGet m k = some w) (hnd : (m.map Prod.fst).Nodup) :
    ∃ l1 l2, m = l1 ++ (k, w) :: l2 ∧ (∀ e ∈ l1, e.1 ≠ k) ∧
      (∀ e ∈ l2, e.1 ≠ k) := by
  induction m with
  | nil => simp [mapGet] at hget
  | cons e rest ih =>
    by_cases h : e.1 = k
    · refine ⟨[], rest, ?_, by simp, ?_⟩
      · simp [mapGet, h] at hget
        obtain ⟨e1, e2⟩ := e
        simp_all
      · intro x hx
        simp only [List.map_cons, List.nodup_cons] at hnd
        intro hxk
        exact hnd.1 (h ▸ hxk ▸ List.mem_map_of_mem Prod.fst hx)
    · simp only [mapGet, h, if_neg] at hget
      simp only [List.map_cons, List.nodup_cons] at hnd
      obtain ⟨l1, l2, hm, h1, h2⟩ := ih hget hnd.2
      exact ⟨e :: l1, l2, by simp [hm], by simpa [h] using h1, h2⟩

theorem mapSet_of_get {α : Type} {m : EntryMap α} {k : String} {w : α}
    (hget : mapGet m k = some w) (v : α) :
    mapSet m k v = m.map (fun e => if e.1 = k then (k, v) else e) := by
  have h : mapHasKey m k = true := by
    cases hh : mapHasKey m k
    · rw [(mapHasKey_eq_false_iff m k).1 hh] at hget; cases hget
    · rfl
  simp [mapSet, h]

theorem mapSet_decomp {α : Type} {m : EntryMap α} {k : String} {w : α}
    (hget : mapGet m k = some w) (hnd : (m.map Prod.fst).Nodup) (v : α) :
    ∃ l1 l2, m = l1 ++ (k, w) :: l2 ∧ mapSet m k v = l1 ++ (k, v) :: l2 ∧
      (∀ e ∈ l1, e.1 ≠ k) ∧ (∀ e ∈ l2, e.1 ≠ k) := by
  obtain ⟨l1, l2, hm, h1, h2⟩ := get_decomp hget hnd
  refine ⟨l1, l2, hm, ?_, h1, h2⟩
  rw [mapSet_of_get hget v, hm]
  simp [map_keep_of_ne l1 k v h1, map_keep_of_ne l2 k v h2]

theorem mapGet_append {α : Type} (m1 m2 : EntryMap α) (k : String) :
    mapGet (m1 ++ m2) k =
      match mapGet m1 k with
      | some v => some v
      | none => mapGet m2 k := by
  induction m1 with
  | nil => simp [mapGet]
  | cons e rest ih =>
    by_cases h : e.1 = k <;> simp [mapGet, h, ih]

theorem mapGet_mapReplace_ne {α : Type} (m : EntryMap α) (k k2 : String)
    (v : α) (h : k2 ≠ k) :
    mapGet (m.map (fun e => if e.1 = k then (k, v) else e)) k2 =
      mapGet m k2 := by
  induction m with
  | nil => rfl
  | cons e rest ih =>
    by_cases hek : e.1 = k
    · have h1 : e.1 ≠ k2 := by rw [hek]; exact Ne.symm h
      have hk2 : k ≠ k2 := Ne.symm h
      simp only [List.map_cons, if_pos hek, mapGet]
      simp [h1, hk2, ih]
    · simp only [List.map_cons, if_neg hek, mapGet]
      by_cases h2 : e.1 = k2 <;> simp [h2, ih]

theorem mapGet_mapReplace_self {α : Type} (m : EntryMap α) (k : String)
    (v : α) (h : mapHasKey m k = true) :
    mapGet (m.map (fun e => if e.1 = k then (k, v) else e)) k = some v := by
  induction m with
  | nil => simp [mapHasKey] at h
  | cons e rest ih =>
    by_cases hek : e.1 = k
    · simp [mapGet, hek]
    · have hrest : mapHasKey rest k = true := by
        simp [mapHasKey] at h ⊢
        rcases h with h | h
        · exact absurd (by simpa using h) hek
        · exact h
      simp [mapGet, hek, ih hrest]

theorem mapGet_mapSet {α : Type} (m : EntryMap α) (k k2 : String) (v : α) :
    mapGet (mapSet m k v) k2 = if k2 = k then some v else mapGet m k2 := by
  cases hh : mapHasKey m k
  · have hget : mapGet m k = none := (mapHasKey_eq_false_iff m k).1 hh
    rw [mapSet_fresh hget v, mapGet_append]
    by_cases h2 : k2 = k
    · subst h2
      simp [hget, mapGet]
    · cases hm : mapGet m k2 <;> simp [mapGet, h2, Ne.symm h2, hm]
  · rw [show mapSet m k v = m.map (fun e => if e.1 = k then (k, v) else e) by
      simp [mapSet, hh]]
    by_cases h2 : k2 = k
    · subst h2
      simp [mapGet_mapReplace_self m k2 v hh]
    · simp [mapGet_mapReplace_ne m k k2 v h2, h2]

theorem mapGet_mem {α : Type} {m : EntryMap α} {k : String} {v : α}
    (h : mapGet m k = some v) : (k, v) ∈ m := by
  induction m with
  | nil => cases h
  | cons e rest ih =>
    by_cases hek : e.1 = k
    · simp only [mapGet, hek, if_pos] at h
      obtain ⟨e1, e2⟩ := e
      simp only [Option.some.injEq] at h
      simp_all
    · simp only [mapGet, hek, if_neg, if_false] at h
      exact List.mem_cons_of_mem _ (ih h)

theorem mem_mapValues_of_mem {α : Type} {m : EntryMap α} {e : String × α}
    (h : e ∈ m) : e.2 ∈ mapValues m :=
  List.mem_map_of_mem Prod.snd h

theorem keys_mapReplace {α : Type} (m : EntryMap α) (k : String) (v : α) :
    (m.map (fun e => if e.1 = k then (k, v) else e)).map Prod.fst =
      m.map Prod.fst := by
  induction m with
  | nil => rfl
  | cons e rest ih =>
    by_cases h : e.1 = k <;> simp [h, ih]

theorem keysNodup_mapSet {α : Type} (m : EntryMap α) (k : String) (v : α)
    (hnd : (m.map Prod.fst).Nodup) :
    ((mapSet m k v).map Prod.fst).Nodup := by
  cases hh : mapHasKey m k
  · rw [mapSet_fresh ((mapHasKey_eq_false_iff m k).1 hh) v]
    have hk := (mapGet_eq_none_iff m k).1 ((mapHasKey_eq_false_iff m k).1 hh)
    rw [List.map_append]
    refine hnd.append (by simp) ?_
    intro a ha hb
    simp only [List.map_cons, List.map_nil, List.mem_singleton] at hb
    subst hb
    obtain ⟨e, he, hke⟩ := List.mem_map.1 ha
    exact hk e he hke
  · rw [show mapSet m k v = m.map (fun e => if e.1 = k then (k, v) else e) by
      simp [mapSet, hh]]
    rw [keys_mapReplace]
    exact hnd

theorem keysMatch_mapSet {α : Type} (f : α → String) (m : EntryMap α)
    (k : String) (v : α) (hm : ∀ e ∈ m, e.1 = f e.2) (hv : f v = k) :
    ∀ e ∈ mapSet m k v, e.1 = f e.2 := by
  intro e he
  cases hh : mapHasKey m k
  · rw [mapSet_fresh ((mapHasKey_eq_false_iff m k).1 hh) v] at he
    rcases List.mem_append.1 he with h | h
    · exact hm e h
    · simp only [List.mem_singleton] at h
      subst h
      simp [hv]
  · rw [show mapSet m k v = m.map (fun x => if x.1 = k then (k, v) else x) by
      simp [mapSet, hh]] at he
    obtain ⟨x, hx, hxe⟩ := List.mem_map.1 he
    by_cases hxk : x.1 = k
    · rw [if_pos hxk] at hxe
      subst hxe
      simp [hv]
    · rw [if_neg hxk] at hxe
      subst hxe
      exact hm x hx

theorem mapDelete_sublist {α : Type} (m : EntryMap α) (k : String) :
    (mapDelete m k).Sublist m :=
  List.filter_sublist m

theorem mapGet_mapDelete_self {α : Type} (m : EntryMap α) (k : String) :
    mapGet (mapDelete m k) k = none := by
  rw [mapGet_eq_none_iff]
  intro e he
  have := List.of_mem_filter he
  simpa using this

theorem mapGet_none_of_sublist {α : Type} {m1 m2 : EntryMap α}
    (h : m1.Sublist m2) {k : String} (hg : mapGet m2 k = none) :
    mapGet m1 k = none := by
  rw [mapGet_eq_none_iff] at hg ⊢
  exact fun e he => hg e (h.subset he)

/-! ## Store invariants -/

/-- Both maps are keyed by the id of the stored record, and keys are
pairwise distinct, as for a JavaScript Map. -/
@[reducible] def TagsWf (s : TagManager) : Prop :=
  (∀ e ∈ s.tags, e.1 = e.2.id) ∧ (s.tags.map Prod.fst).Nodup

/-- All tag names in the global tag map are pairwise distinct
(case-sensitive). -/
@[reducible] def NamesDistinct (s : TagManager) : Prop :=
  ((mapValues s.tags).map TagItem.name).Nodup

theorem isTagNameExists_none_iff (s : TagManager) (n : String) :
    isTagNameExists s n none = true ↔ ∃ t ∈ mapValues s.tags, t.name = n := by
  simp [isTagNameExists, List.any_eq_true]

theorem name_ne_of_isTagNameExists_none_false {s : TagManager} {n : String}
    (h : isTagNameExists s n none = false) :
    ∀ t ∈ mapValues s.tags, t.name ≠ n := by
  intro t ht hn
  have : isTagNameExists s n none = true :=
    (isTagNameExists_none_iff s n).2 ⟨t, ht, hn⟩
  rw [h] at this
  cases this

theorem name_implies_id_of_isTagNameExists_some_false {s : TagManager}
    {n tid : String} (h : isTagNameExists s n (some tid) = false) :
    ∀ t ∈ mapValues s.tags, t.name = n → t.id = tid := by
  intro t ht hn
  by_contra hne
  have : isTagNameExists s n (some tid) = true := by
    simp only [isTagNameExists, List.any_eq_true]
    exact ⟨t, ht, by simp [hn, hne]⟩
  rw [h] at this
  cases this

theorem removeTag_tags (s : TagManager) (tid : String) :
    ((removeTag s tid).2).tags = mapDelete s.tags tid := by
  cases h : mapGet s.tags tid with
  | none =>
    have hk := (mapGet_eq_none_iff s.tags tid).1 h
    simp only [removeTag, h]
    show s.tags = s.tags.filter fun e => e.1 != tid
    exact (List.filter_eq_self.2 fun e he => by simpa using hk e he).symm
  | some tag => simp [removeTag, h]

theorem TagsWf_removeTag {s : TagManager} (h : TagsWf s) (tid : String) :
    TagsWf (removeTag s tid).2 := by
  obtain ⟨h1, h2⟩ := h
  constructor
  · intro e he
    rw [removeTag_tags] at he
    exact h1 e ((mapDelete_sublist s.tags tid).subset he)
  · rw [removeTag_tags]
    exact h2.sublist ((mapDelete_sublist s.tags tid).map Prod.fst)

theorem NamesDistinct_removeTag {s : TagManager} (h : NamesDistinct s)
    (tid : String) : NamesDistinct (removeTag s tid).2 := by
  unfold NamesDistinct at h ⊢
  rw [removeTag_tags]
  exact h.sublist (((mapDelete_sublist s.tags tid).map Prod.snd).map TagItem.name)

theorem preserves_insert (m : EntryMap TagItem) (k : String) (tg : TagItem)
    (hk : tg.id = k)
    (hwf1 : ∀ e ∈ m, e.1 = e.2.id) (hwf2 : (m.map Prod.fst).Nodup)
    (hnd : ((mapValues m).map TagItem.name).Nodup)
    (hfresh : mapGet m k = none)
    (hname : ∀ t ∈ mapValues m, t.name ≠ tg.name) :
    (∀ e ∈ mapSet m k tg, e.1 = e.2.id) ∧
    ((mapSet m k tg).map Prod.fst).Nodup ∧
    ((mapValues (mapSet m k tg)).map TagItem.name).Nodup := by
  refine ⟨keysMatch_mapSet TagItem.id m k tg hwf1 hk,
    keysNodup_mapSet m k tg hwf2, ?_⟩
  rw [mapSet_fresh hfresh tg]
  have hv : mapValues (m ++ [(k, tg)]) = mapValues m ++ [tg] := by
    simp [mapValues]
  rw [hv, List.map_append]
  refine hnd.append (by simp) ?_
  intro a ha hb
  simp only [List.map_cons, List.map_nil, List.mem_singleton] at hb
  subst hb
  obtain ⟨t, ht, hteq⟩ := List.mem_map.1 ha
  exact hname t ht hteq

theorem preserves_replace (m : EntryMap TagItem) (tid : String)
    (tag tag1 : TagItem) (hget : mapGet m tid = some tag)
    (hwf1 : ∀ e ∈ m, e.1 = e.2.id) (hwf2 : (m.map Prod.fst).Nodup)
    (hnd : ((mapValues m).map TagItem.name).Nodup)
    (hid : tag1.id = tag.id)
    (hname : ∀ t ∈ mapValues m, t.name = tag1.name → t.id = tid) :
    (∀ e ∈ mapSet m tid tag1, e.1 = e.2.id) ∧
    ((mapSet m tid tag1).map Prod.fst).Nodup ∧
    ((mapValues (mapSet m tid tag1)).map TagItem.name).Nodup := by
  have htid : tid = tag.id := hwf1 (tid, tag) (mapGet_mem hget)
  refine ⟨keysMatch_mapSet TagItem.id m tid tag1 hwf1 (hid.trans htid.symm),
    keysNodup_mapSet m tid tag1 hwf2, ?_⟩
  obtain ⟨l1, l2, hm, hset, h1, h2⟩ := mapSet_decomp hget hwf2 tag1
  have hnd2 := hnd
  rw [hm] at hnd2
  simp only [mapValues, List.map_append, List.map_cons] at hnd2
  rw [List.nodup_middle] at hnd2
  obtain ⟨hout, hAB⟩ := List.nodup_cons.1 hnd2
  rw [hset]
  simp only [mapValues, List.map_append, List.map_cons]
  rw [List.nodup_middle]
  refine List.nodup_cons.2 ⟨?_, hAB⟩
  intro hmem
  rcases List.mem_append.1 hmem with hA | hB
  · obtain ⟨x, hx, hxn⟩ := List.mem_map.1 hA
    obtain ⟨e, he, rfl⟩ := List.mem_map.1 hx
    have hmemS : e.2 ∈ mapValues m := by
      rw [hm]
      exact mem_mapValues_of_mem (List.mem_append.2 (Or.inl he))
    have hid2 := hname e.2 hmemS hxn
    have hkey : e.1 = e.2.id := hwf1 e (by rw [hm]; exact List.mem_append.2 (Or.inl he))
    exact h1 e he (hkey.trans hid2)
  · obtain ⟨x, hx, hxn⟩ := List.mem_map.1 hB
    obtain ⟨e, he, rfl⟩ := List.mem_map.1 hx
    have hmemS : e.2 ∈ mapValues m := by
      rw [hm]
      exact mem_mapValues_of_mem (List.mem_append.2 (Or.inr (List.mem_cons_of_mem _ he)))
    have hid2 := hname e.2 hmemS hxn
    have hkey : e.1 = e.2.id :=
      hwf1 e (by rw [hm]; exact List.mem_append.2 (Or.inr (List.mem_cons_of_mem _ he)))
    exact h2 e he (hkey.trans hid2)

theorem addTag_preserves (s : TagManager) (fp n gid : String)
    (d : Option String) (fid : String) (now : Nat) (u : String) (rc : Bool)
    (hwf : TagsWf s) (hnd : NamesDistinct s)
    (hfresh : mapGet s.tags fid = none) :
    TagsWf (addTag s fp n gid d fid now u rc).2 ∧
      NamesDistinct (addTag s fp n gid d fid now u rc).2 := by
  by_cases hdup : isTagNameExists s n none = true
  · simp only [addTag, hdup, if_true]
    exact ⟨hwf, hnd⟩
  · have hdup2 : isTagNameExists s n none = false := by
      cases h : isTagNameExists s n none
      · rfl
      · exact absurd h hdup
    have hname := name_ne_of_isTagNameExists_none_false hdup2
    cases hex : getTagForFile s fp with
    | none =>
      simp only [addTag, hdup2, Bool.false_eq_true, if_false, hex]
      have h := preserves_insert s.tags fid
        (newTag fp n gid d fid now u) rfl hwf.1 hwf.2 hnd hfresh hname
      exact ⟨⟨h.1, h.2.1⟩, h.2.2⟩
    | some ex =>
      cases rc with
      | false =>
        simp only [addTag, hdup2, Bool.false_eq_true, if_false, hex]
        exact ⟨hwf, hnd⟩
      | true =>
        have hsub : ((removeTag s ex.id).2).tags.Sublist s.tags := by
          rw [removeTag_tags]
          exact mapDelete_sublist s.tags ex.id
        have hwf1 := TagsWf_removeTag hwf ex.id
        have hnd1 := NamesDistinct_removeTag hnd ex.id
        have hfresh1 : mapGet ((removeTag s ex.id).2).tags fid = none :=
          mapGet_none_of_sublist hsub hfresh
        have hname1 : ∀ t ∈ mapValues ((removeTag s ex.id).2).tags, t.name ≠ n :=
          fun t ht => hname t ((hsub.map Prod.snd).subset ht)
        simp only [addTag, hdup2, Bool.false_eq_true, if_false, hex, if_true]
        have h := preserves_insert ((removeTag s ex.id).2).tags fid
          (newTag fp n gid d fid now u) rfl hwf1.1 hwf1.2 hnd1 hfresh1 hname1
        exact ⟨⟨h.1, h.2.1⟩, h.2.2⟩

theorem editTag_preserves (s : TagManager) (tid n : String)
    (d : Option String) (now : Nat) (u : String)
    (hwf : TagsWf s) (hnd : NamesDistinct s) :
    TagsWf (editTag s tid n d now u).2 ∧
      NamesDistinct (editTag s tid n d now u).2 := by
  cases hget : mapGet s.tags tid with
  | none =>
    simp only [editTag, hget]
    exact ⟨hwf, hnd⟩
  | some tag =>
    by_cases hdup : isTagNameExists s n (some tid) = true
    · simp only [editTag, hget, hdup, if_true]
      exact ⟨hwf, hnd⟩
    · have hdup2 : isTagNameExists s n (some tid) = false := by
        cases h : isTagNameExists s n (some tid)
        · rfl
        · exact absurd h hdup
      have hname := name_implies_id_of_isTagNameExists_some_false hdup2
      simp only [editTag, hget, hdup2, Bool.false_eq_true, if_false]
      have h := preserves_replace s.tags tid tag
        (editedTag tag n d now u) hget hwf.1 hwf.2 hnd rfl hname
      exact ⟨⟨h.1, h.2.1⟩, h.2.2⟩

/-- One mutating step of the kind claim C1 quantifies over: an addTag or
editTag call with arbitrary arguments, each succeeding or failing as the
code decides; the id generated for addTag is assumed fresh, as the
Date.now-plus-random scheme intends. -/
inductive TagStep : TagManager → TagManager → Prop
  | add (s : TagManager) (fp n gid : String) (d : Option String)
      (fid : String) (now : Nat) (u : String) (rc : Bool)
      (hfresh : mapGet s.tags fid = none) :
      TagStep s (addTag s fp n gid d fid now u rc).2
  | edit (s : TagManager) (tid n : String) (d : Option String)
      (now : Nat) (u : String) :
      TagStep s (editTag s tid n d now u).2

theorem TagStep_preserves {s s2 : TagManager} (h : TagStep s s2)
    (hwf : TagsWf s) (hnd : NamesDistinct s) :
    TagsWf s2 ∧ NamesDistinct s2 := by
  cases h with
  | add fp n gid d fid now u rc hfresh =>
    exact addTag_preserves s fp n gid d fid now u rc hwf hnd hfresh
  | edit tid n d now u =>
    exact editTag_preserves s tid n d now u hwf hnd

/-- Sample data shared by several concrete evaluations below. -/
def tagW : TagItem :=
  { id := "t1", name := "Dup", filePath := "/f2.js", group := "g1",
    description := none, createdAt := 1, createdBy := some "alice",
    lastModified := some 1, lastModifiedBy := some "alice" }

def groupW : TagGroup :=
  { id := "g1", name := "A", tags := [tagW] }

def stateW : TagManager :=
  { tags := [("t1", tagW)], groups := [("g1", groupW)] }

/-- C1: for every state in which all tag names are pairwise distinct
(and the maps are well-keyed), after any sequence of addTag and editTag
operations, each succeeding or failing as the code decides, all tag
names in the global tag map remain pairwise distinct under
case-sensitive exact comparison; in particular an addTag call whose name
equals an existing tag name returns no tag, leaves the state untouched
and keeps the tag map size unchanged. -/
theorem C1_names_remain_distinct (s s2 : TagManager)
    (hwf : TagsWf s) (hnd : NamesDistinct s)
    (hsteps : Relation.ReflTransGen TagStep s s2) :
    NamesDistinct s2 ∧
      ∀ fp n gid d fid now u rc, isTagNameExists s2 n none = true →
        addTag s2 fp n gid d fid now u rc = (none, s2) ∧
        mapSize (addTag s2 fp n gid d fid now u rc).2.tags =
          mapSize s2.tags := by
  have main : TagsWf s2 ∧ NamesDistinct s2 := by
    induction hsteps with
    | refl => exact ⟨hwf, hnd⟩
    | tail hab hbc ih => exact TagStep_preserves hbc ih.1 ih.2
  refine ⟨main.2, ?_⟩
  intro fp n gid d fid now u rc hdup
  have heq : addTag s2 fp n gid d fid now u rc = (none, s2) := by
    simp [addTag, hdup]
  exact ⟨heq, by rw [heq]⟩

/-- Witness for C1 at a concrete state holding one tag named Dup: a
second addTag with the same name fails and changes nothing. -/
theorem C1_witness :
    NamesDistinct stateW ∧
      addTag stateW "/f3.js" "Dup" "g1" none "t9" 7 "alice" true =
        (none, stateW) := by
  have h := C1_names_remain_distinct stateW stateW (by decide) (by decide)
    Relation.ReflTransGen.refl
  exact ⟨h.1, (h.2 "/f3.js" "Dup" "g1" none "t9" 7 "alice" true (by decide)).1⟩

/-- C8: removeTag, editTag and removeGroup called with an unknown id
each return the failure indicator false and leave both maps (the whole
state) unchanged. -/
theorem C8_unknown_id_noop (s : TagManager) (tid gid n : String)
    (d : Option String) (now : Nat) (u : String)
    (h1 : mapGet s.tags tid = none) (h2 : mapGet s.groups gid = none) :
    removeTag s tid = (false, s) ∧
      editTag s tid n d now u = (false, s) ∧
      removeGroup s gid = (false, s) := by
  refine ⟨?_, ?_, ?_⟩
  · simp [removeTag, h1]
  · simp [editTag, h1]
  · simp [removeGroup, h2]

/-- Witness for C8 at a concrete state and an id absent from both maps. -/
theorem C8_witness :
    mapGet stateW.tags "zz" = none ∧ mapGet stateW.groups "zz" = none ∧
      removeTag stateW "zz" = (false, stateW) ∧
      editTag stateW "zz" "N" none 3 "bob" = (false, stateW) ∧
      removeGroup stateW "zz" = (false, stateW) := by
  have h := C8_unknown_id_noop stateW "zz" "zz" "N" none 3 "bob"
    (by decide) (by decide)
  exact ⟨by decide, by decide, h.1, h.2.1, h.2.2⟩

/-- C10: a successful editTag with no new description stores a tag whose
description equals the previous one; supplying a description (including
the empty string) overwrites it. -/
theorem C10_description_frame (s : TagManager) (tid n : String)
    (now : Nat) (u : String) (tag : TagItem)
    (hget : mapGet s.tags tid = some tag)
    (hdup : isTagNameExists s n (some tid) = false) :
    ((editTag s tid n none now u).1 = true ∧
      mapGet (editTag s tid n none now u).2.tags tid =
        some (editedTag tag n none now u) ∧
      (editedTag tag n none now u).description = tag.description) ∧
    ∀ dnew : String,
      (editTag s tid n (some dnew) now u).1 = true ∧
      mapGet (editTag s tid n (some dnew) now u).2.tags tid =
        some (editedTag tag n (some dnew) now u) ∧
      (editedTag tag n (some dnew) now u).description = some dnew := by
  refine ⟨⟨?_, ?_, rfl⟩, fun dnew => ⟨?_, ?_, rfl⟩⟩
  · simp [editTag, hget, hdup]
  · simp only [editTag, hget, hdup, Bool.false_eq_true, if_false]
    rw [mapGet_mapSet]
    simp
  · simp [editTag, hget, hdup]
  · simp only [editTag, hget, hdup, Bool.false_eq_true, if_false]
    rw [mapGet_mapSet]
    simp

/-- Witness for C10 at a concrete state: editing without a description
keeps the old one. -/
theorem C10_witness :
    (editTag stateW "t1" "T2" none 5 "bob").1 = true ∧
      mapGet (editTag stateW "t1" "T2" none 5 "bob").2.tags "t1" =
        some (editedTag tagW "T2" none 5 "bob") ∧
      (editedTag tagW "T2" none 5 "bob").description = tagW.description := by
  exact (C10_description_frame stateW "t1" "T2" 5 "bob" tagW
    (by decide) (by decide)).1

/-- The empty store. -/
def emptyState : TagManager :=
  { tags := [], groups := [] }

/-- Counterexample to C3 as stated: with no groups at all, addTag still
succeeds (returns a tag) although its groupId names no existing group,
so a tag can be created belonging to a nonexistent group. -/
theorem C3_counterexample :
    ((addTag emptyState "/a.js" "T" "gX" none "id1" 0 "u" true).1).isSome =
        true ∧
      mapGet (addTag emptyState "/a.js" "T" "gX" none "id1" 0 "u" true).2.groups
          "gX" = none ∧
      mapGet (addTag emptyState "/a.js" "T" "gX" none "id1" 0 "u" true).2.tags
          "id1" = some (newTag "/a.js" "T" "gX" none "id1" 0 "u") := by
  decide

theorem removeTag_groups_isSome (s : TagManager) (tid k : String) :
    (mapGet ((removeTag s tid).2).groups k).isSome =
      (mapGet s.groups k).isSome := by
  cases h : mapGet s.tags tid with
  | none => simp [removeTag, h]
  | some tag =>
    cases hg : mapGet s.groups tag.group with
    | none => simp [removeTag, h, hg]
    | some g =>
      simp only [removeTag, h, hg]
      rw [mapGet_mapSet]
      by_cases hk : k = tag.group
      · subst hk
        simp [hg]
      · simp [hk]

/-- C3 amended: a successful addTag whose groupId names an existing
group does put the new tag into that group's list (and the tag
references that group); but when the groupId names no group the tag is
still created, referencing the missing group (see the counterexample). -/
theorem C3_group_membership (s : TagManager) (fp n gid : String)
    (d : Option String) (fid : String) (now : Nat) (u : String) (rc : Bool)
    (tg : TagItem) (s2 : TagManager) (g : TagGroup)
    (hcall : addTag s fp n gid d fid now u rc = (some tg, s2))
    (hg : mapGet s.groups gid = some g) :
    tg.group = gid ∧
      ∃ g2, mapGet s2.groups gid = some g2 ∧ tg ∈ g2.tags := by
  by_cases hdup : isTagNameExists s n none = true
  · simp [addTag, hdup] at hcall
  · have hdup2 : isTagNameExists s n none = false := by
      cases h : isTagNameExists s n none
      · rfl
      · exact absurd h hdup
    cases hex : getTagForFile s fp with
    | none =>
      simp only [addTag, hdup2, Bool.false_eq_true, if_false, hex, hg,
        Prod.mk.injEq, Option.some.injEq] at hcall
      obtain ⟨rfl, rfl⟩ := hcall
      refine ⟨rfl, { g with tags := g.tags ++ [newTag fp n gid d fid now u] },
        ?_, by simp⟩
      show mapGet (mapSet s.groups gid _) gid = _
      rw [mapGet_mapSet]
      simp
    | some ex =>
      cases rc with
      | false =>
        simp only [addTag, hdup2, Bool.false_eq_true, if_false, hex] at hcall
        simp at hcall
      | true =>
        have hsome : (mapGet ((removeTag s ex.id).2).groups gid).isSome = true := by
          rw [removeTag_groups_isSome, hg]
          rfl
        obtain ⟨g1, hg1⟩ := Option.isSome_iff_exists.1 hsome
        simp only [addTag, hdup2, Bool.false_eq_true, if_false, hex, if_true,
          hg1, Prod.mk.injEq, Option.some.injEq] at hcall
        obtain ⟨rfl, rfl⟩ := hcall
        refine ⟨rfl,
          { g1 with tags := g1.tags ++ [newTag fp n gid d fid now u] },
          ?_, by simp⟩
        show mapGet (mapSet _ gid _) gid = _
        rw [mapGet_mapSet]
        simp

/-- Witness for the amended C3 at a concrete state whose group exists:
the added tag lands in the group's list. -/
theorem C3_witness :
    (newTag "/f9.js" "New" "g1" none "t7" 9 "bob").group = "g1" ∧
      ∃ g2,
        mapGet (addTag stateW "/f9.js" "New" "g1" none "t7" 9 "bob" true).2.groups
            "g1" = some g2 ∧
          newTag "/f9.js" "New" "g1" none "t7" 9 "bob" ∈ g2.tags := by
  exact C3_group_membership stateW "/f9.js" "New" "g1" none "t7" 9 "bob" true
    (newTag "/f9.js" "New" "g1" none "t7" 9 "bob")
    (addTag stateW "/f9.js" "New" "g1" none "t7" 9 "bob" true).2 groupW
    (by decide) (by decide)

/-- C2: when the file already carries exactly one tag, a refused addTag
changes nothing and returns no result, while a confirmed addTag removes
the existing tag first and inserts the new one, after which
getTagsForFile on that path returns exactly the new tag. -/
theorem C2_replace_semantics (s : TagManager) (fp n gid : String)
    (d : Option String) (fid : String) (now : Nat) (u : String)
    (ex : TagItem) (hwf : TagsWf s)
    (hex : getTagForFile s fp = some ex)
    (honly : ∀ t ∈ mapValues s.tags, t.filePath = fp → t.id = ex.id)
    (hdup : isTagNameExists s n none = false)
    (hfresh : mapGet s.tags fid = none) :
    addTag s fp n gid d fid now u false = (none, s) ∧
      (addTag s fp n gid d fid now u true).1 =
        some (newTag fp n gid d fid now u) ∧
      getTagsForFile (addTag s fp n gid d fid now u true).2 fp =
        [newTag fp n gid d fid now u] := by
  refine ⟨by simp [addTag, hdup, hex], by simp [addTag, hdup, hex], ?_⟩
  simp only [addTag, hdup, Bool.false_eq_true, if_false, hex, if_true]
  have hfresh1 : mapGet ((removeTag s ex.id).2).tags fid = none := by
    rw [removeTag_tags]
    exact mapGet_none_of_sublist (mapDelete_sublist s.tags ex.id) hfresh
  show (mapValues (mapSet ((removeTag s ex.id).2).tags fid
    (newTag fp n gid d fid now u))).filter _ = _
  rw [mapSet_fresh hfresh1]
  have hv : mapValues (((removeTag s ex.id).2).tags ++
      [(fid, newTag fp n gid d fid now u)]) =
      mapValues ((removeTag s ex.id).2).tags ++
        [newTag fp n gid d fid now u] := by
    simp [mapValues]
  rw [hv, List.filter_append]
  have hnil : (mapValues ((removeTag s ex.id).2).tags).filter
      (fun tag => tag.filePath == fp) = [] := by
    rw [List.filter_eq_nil_iff]
    intro t ht hfp
    rw [removeTag_tags] at ht
    obtain ⟨e, he, rfl⟩ := List.mem_map.1 ht
    have hne : e.1 ≠ ex.id := by simpa using List.of_mem_filter he
    have hid : e.1 = e.2.id :=
      hwf.1 e ((mapDelete_sublist s.tags ex.id).subset he)
    have hmem : e.2 ∈ mapValues s.tags :=
      mem_mapValues_of_mem ((mapDelete_sublist s.tags ex.id).subset he)
    exact hne (hid.trans (honly e.2 hmem (by simpa using hfp)))
  rw [hnil]
  simp [newTag]

/-- Witness for C2 at a concrete state: replacing the tag on /f2.js. -/
theorem C2_witness :
    addTag stateW "/f2.js" "T2" "g1" none "t5" 9 "bob" false =
        (none, stateW) ∧
      (addTag stateW "/f2.js" "T2" "g1" none "t5" 9 "bob" true).1 =
        some (newTag "/f2.js" "T2" "g1" none "t5" 9 "bob") ∧
      getTagsForFile (addTag stateW "/f2.js" "T2" "g1" none "t5" 9 "bob" true).2
          "/f2.js" = [newTag "/f2.js" "T2" "g1" none "t5" 9 "bob"] := by
  exact C2_replace_semantics stateW "/f2.js" "T2" "g1" none "t5" 9 "bob" tagW
    (by decide) (by decide) (by decide) (by decide) (by decide)

theorem findIndexOpt_lt_length {α : Type} (p : α → Bool) (l : List α)
    (i : Nat) (h : findIndexOpt p l = some i) : i < l.length := by
  induction l generalizing i with
  | nil => cases h
  | cons a rest ih =>
    by_cases hp : p a
    · simp only [findIndexOpt, hp, if_true, Option.some.injEq] at h
      subst h
      simp
    · simp only [findIndexOpt, hp, if_false] at h
      cases hr : findIndexOpt p rest with
      | none =>
        rw [hr] at h
        cases h
      | some j =>
        rw [hr] at h
        simp at h
        have := ih j hr
        simp
        omega

theorem getElem?_set_self {α : Type} (l : List α) (i : Nat) (a : α)
    (h : i < l.length) : (l.set i a)[i]? = some a := by
  induction l generalizing i with
  | nil => simp at h
  | cons b rest ih =>
    cases i with
    | zero => simp
    | succ j => simpa using ih j (by simpa using h)

/-- C5: a successful editTag stores a tag with unchanged id, filePath,
group and creation metadata, the new name, refreshed modification
metadata; and the denormalized copy inside the owning group's list is
replaced at its position by that exact record. -/
theorem C5_edit_frame (s : TagManager) (tid n : String) (d : Option String)
    (now : Nat) (u : String) (tag : TagItem) (g : TagGroup) (i : Nat)
    (hget : mapGet s.tags tid = some tag)
    (hdup : isTagNameExists s n (some tid) = false)
    (hg : mapGet s.groups tag.group = some g)
    (hidx : findIndexOpt (fun t => t.id == tid) g.tags = some i) :
    (editTag s tid n d now u).1 = true ∧
      mapGet (editTag s tid n d now u).2.tags tid =
        some (editedTag tag n d now u) ∧
      (editedTag tag n d now u).id = tag.id ∧
      (editedTag tag n d now u).filePath = tag.filePath ∧
      (editedTag tag n d now u).group = tag.group ∧
      (editedTag tag n d now u).name = n ∧
      (editedTag tag n d now u).createdAt = tag.createdAt ∧
      (editedTag tag n d now u).createdBy = tag.createdBy ∧
      (editedTag tag n d now u).lastModified = some now ∧
      (editedTag tag n d now u).lastModifiedBy = some u ∧
      ∃ g2, mapGet (editTag s tid n d now u).2.groups tag.group = some g2 ∧
        g2.tags = g.tags.set i (editedTag tag n d now u) ∧
        g2.tags[i]? = some (editedTag tag n d now u) := by
  have hgroup : (editedTag tag n d now u).group = tag.group := rfl
  refine ⟨by simp [editTag, hget, hdup], ?_, rfl, rfl, rfl, rfl, rfl, rfl,
    rfl, rfl, ?_⟩
  · simp only [editTag, hget, hdup, Bool.false_eq_true, if_false]
    rw [mapGet_mapSet]
    simp
  · simp only [editTag, hget, hdup, Bool.false_eq_true, if_false, hgroup,
      hg, hidx]
    refine ⟨{ g with tags := g.tags.set i (editedTag tag n d now u) }, ?_,
      rfl, ?_⟩
    · rw [mapGet_mapSet]
      simp
    · exact getElem?_set_self g.tags i (editedTag tag n d now u)
        (findIndexOpt_lt_length _ g.tags i hidx)

/-- Witness for C5 at a concrete state: editing the only tag keeps its
path and group and updates the group's denormalized copy. -/
theorem C5_witness :
    (editTag stateW "t1" "T3" none 5 "bob").1 = true ∧
      mapGet (editTag stateW "t1" "T3" none 5 "bob").2.tags "t1" =
        some (editedTag tagW "T3" none 5 "bob") ∧
      (editedTag tagW "T3" none 5 "bob").filePath = tagW.filePath := by
  have h := C5_edit_frame stateW "t1" "T3" none 5 "bob" tagW groupW 0
    (by decide) (by decide) (by decide) (by decide)
  exact ⟨h.1, h.2.1, h.2.2.2.1⟩

theorem mapGet_foldl_delete_none {α : Type} (l : List TagItem)
    (m : EntryMap α) (k : String) (h : mapGet m k = none) :
    mapGet (l.foldl (fun mm t => mapDelete mm t.id) m) k = none := by
  induction l generalizing m with
  | nil => exact h
  | cons t rest ih =>
    exact ih (mapDelete m t.id)
      (mapGet_none_of_sublist (mapDelete_sublist m t.id) h)

theorem mapGet_foldl_delete_mem {α : Type} (l : List TagItem)
    (m : EntryMap α) {t0 : TagItem} (h : t0 ∈ l) :
    mapGet (l.foldl (fun mm t => mapDelete mm t.id) m) t0.id = none := by
  induction l generalizing m with
  | nil => cases h
  | cons t rest ih =>
    rcases List.mem_cons.1 h with rfl | hmem
    · exact mapGet_foldl_delete_none rest (mapDelete m t0.id) t0.id
        (mapGet_mapDelete_self m t0.id)
    · exact ih (mapDelete m t.id) hmem

theorem foldl_delete_sublist {α : Type} (l : List TagItem) (m : EntryMap α) :
    (l.foldl (fun mm t => mapDelete mm t.id) m).Sublist m := by
  induction l generalizing m with
  | nil => exact List.Sublist.refl m
  | cons t rest ih =>
    exact (ih (mapDelete m t.id)).trans (mapDelete_sublist m t.id)

theorem mapGet_isSome_of_mem {α : Type} {m : EntryMap α} {e : String × α}
    (h : e ∈ m) : mapGet m e.1 ≠ none := by
  intro hnone
  exact (mapGet_eq_none_iff m e.1).1 hnone e h rfl

/-- C4: removing an existing group deletes every tag listed in that
group from the global tag map before deleting the group itself;
afterwards no remaining tag references the removed group, and the group
is gone from the group map. -/
theorem C4_removeGroup_cascade (s : TagManager) (gid : String)
    (g : TagGroup) (hwf : TagsWf s)
    (hg : mapGet s.groups gid = some g)
    (hcover : ∀ t ∈ mapValues s.tags, t.group = gid →
      ∃ gt ∈ g.tags, gt.id = t.id) :
    (removeGroup s gid).1 = true ∧
      (∀ gt ∈ g.tags, mapGet ((removeGroup s gid).2).tags gt.id = none) ∧
      (∀ t ∈ mapValues ((removeGroup s gid).2).tags, t.group ≠ gid) ∧
      mapGet ((removeGroup s gid).2).groups gid = none := by
  refine ⟨by simp [removeGroup, hg], ?_, ?_, ?_⟩
  · intro gt hgt
    simp only [removeGroup, hg]
    exact mapGet_foldl_delete_mem g.tags s.tags hgt
  · intro t ht hgrp
    simp only [removeGroup, hg] at ht
    obtain ⟨e, he, rfl⟩ := List.mem_map.1 ht
    have hsub := foldl_delete_sublist g.tags s.tags
    have hmem : e.2 ∈ mapValues s.tags := mem_mapValues_of_mem (hsub.subset he)
    obtain ⟨gt, hgtmem, hgtid⟩ := hcover e.2 hmem hgrp
    have hid : e.1 = e.2.id := hwf.1 e (hsub.subset he)
    have hnone : mapGet (g.tags.foldl (fun mm t => mapDelete mm t.id) s.tags)
        gt.id = none := mapGet_foldl_delete_mem g.tags s.tags hgtmem
    have : mapGet (g.tags.foldl (fun mm t => mapDelete mm t.id) s.tags)
        e.1 ≠ none := mapGet_isSome_of_mem he
    rw [hid, ← hgtid] at this
    exact this hnone
  · simp only [removeGroup, hg]
    exact mapGet_mapDelete_self s.groups gid

/-- Witness for C4 at a concrete state: removing the only group empties
the tag map of its tag. -/
theorem C4_witness :
    (removeGroup stateW "g1").1 = true ∧
      mapGet ((removeGroup stateW "g1").2).tags "t1" = none ∧
      mapGet ((removeGroup stateW "g1").2).groups "g1" = none := by
  have h := C4_removeGroup_cascade stateW "g1" groupW (by decide) (by decide)
    (by decide)
  exact ⟨h.1, h.2.1 tagW (by decide), h.2.2.2⟩

/-- The mathematical substring relation meant by contains: q occurs
contiguously inside str. -/
def SubstringOf (q str : String) : Prop :=
  ∃ pre post, str.toList = pre ++ q.toList ++ post

theorem startsWithChars_iff :
    ∀ need hay : List Char,
      startsWithChars need hay = true ↔ ∃ post, hay = need ++ post := by
  intro need
  induction need with
  | nil =>
    intro hay
    simp [startsWithChars]
  | cons a as ih =>
    intro hay
    cases hay with
    | nil => simp [startsWithChars]
    | cons b bs =>
      simp only [startsWithChars, Bool.and_eq_true, beq_iff_eq, ih bs]
      constructor
      · rintro ⟨hab, post, hbs⟩
        exact ⟨post, by rw [hbs, hab]; rfl⟩
      · rintro ⟨post, hp⟩
        have hp2 : b :: bs = a :: (as ++ post) := hp
        injection hp2 with h1 h2
        exact ⟨h1.symm, post, h2⟩

theorem includesFrom_iff (need : List Char) :
    ∀ hay : List Char,
      includesFrom hay need = true ↔ ∃ pre post, hay = pre ++ need ++ post := by
  intro hay
  induction hay with
  | nil =>
    simp only [includesFrom, List.isEmpty_iff]
    constructor
    · rintro rfl
      exact ⟨[], [], rfl⟩
    · rintro ⟨pre, post, h⟩
      have h2 := List.append_eq_nil.1 h.symm
      exact (List.append_eq_nil.1 h2.1).2
  | cons c rest ih =>
    simp only [includesFrom, Bool.or_eq_true, ih, startsWithChars_iff]
    constructor
    · rintro (⟨post, hp⟩ | ⟨pre, post, rfl⟩)
      · exact ⟨[], post, by simp [hp]⟩
      · exact ⟨c :: pre, post, rfl⟩
    · rintro ⟨pre, post, heq⟩
      cases pre with
      | nil =>
        exact Or.inl ⟨post, by simpa using heq⟩
      | cons p ps =>
        right
        have heq2 : c :: rest = p :: (ps ++ need ++ post) := by simpa using heq
        injection heq2 with h1 h2
        exact ⟨ps, post, h2⟩

theorem jsIncludes_iff (hay need : String) :
    jsIncludes hay need = true ↔ SubstringOf need hay := by
  unfold jsIncludes SubstringOf
  exact includesFrom_iff need.toList hay.toList

theorem searchPred_iff (t : TagItem) (lq : String) :
    ((jsIncludes (jsToLower t.name) lq ||
      (match t.description with
       | some d => jsIncludes (jsToLower d) lq
       | none => false) ||
      jsIncludes (jsToLower (basename t.filePath)) lq) = true) ↔
      (SubstringOf lq (jsToLower t.name) ∨
       (∃ dd, t.description = some dd ∧ SubstringOf lq (jsToLower dd)) ∨
       SubstringOf lq (jsToLower (basename t.filePath))) := by
  cases hd : t.description with
  | none => simp [hd, jsIncludes_iff]
  | some dd => simp [hd, jsIncludes_iff, or_assoc]

/-- C6: searchTags returns exactly the tags whose lowered name, lowered
description, or lowered file basename contains the lowered query as a
contiguous substring, and no others, keeping the tag map's insertion
order: the result is a sublist of the map's value sequence. -/
theorem C6_search_characterization (s : TagManager) (q : String) :
    (∀ t : TagItem, t ∈ searchTags s q ↔
      (t ∈ mapValues s.tags ∧
        (SubstringOf (jsToLower q) (jsToLower t.name) ∨
         (∃ dd, t.description = some dd ∧
            SubstringOf (jsToLower q) (jsToLower dd)) ∨
         SubstringOf (jsToLower q) (jsToLower (basename t.filePath))))) ∧
    (searchTags s q).Sublist (mapValues s.tags) := by
  constructor
  · intro t
    simp only [searchTags, List.mem_filter]
    exact and_congr_right fun _ => searchPred_iff t (jsToLower q)
  · show ((mapValues s.tags).filter _).Sublist (mapValues s.tags)
    exact List.filter_sublist _

theorem foldl_mapSet_rebuild {α : Type} (f : α → String) (l : EntryMap α) :
    ∀ acc : EntryMap α, (∀ e ∈ l, e.1 = f e.2) → (l.map Prod.fst).Nodup →
      (∀ e ∈ l, mapGet acc e.1 = none) →
      (mapValues l).foldl (fun m v => mapSet m (f v) v) acc = acc ++ l := by
  induction l with
  | nil =>
    intro acc _ _ _
    simp [mapValues]
  | cons e rest ih =>
    intro acc hmatch hnd hdisj
    obtain ⟨e1, e2⟩ := e
    have he1 : e1 = f e2 := hmatch (e1, e2) (by simp)
    have hnd2 : (e1 :: List.map Prod.fst rest).Nodup := hnd
    have hkey : e1 ∉ rest.map Prod.fst := (List.nodup_cons.1 hnd2).1
    simp only [mapValues, List.map_cons, List.foldl_cons]
    have hfresh : mapGet acc (f e2) = none := he1 ▸ hdisj (e1, e2) (by simp)
    rw [mapSet_fresh hfresh e2]
    have hrest := ih (acc ++ [(f e2, e2)])
      (fun x hx => hmatch x (List.mem_cons_of_mem _ hx))
      ((List.nodup_cons.1 hnd2).2)
      (fun x hx => by
        rw [mapGet_append, hdisj x (List.mem_cons_of_mem _ hx)]
        have hx1 : x.1 ≠ e1 := by
          intro heq
          exact hkey (heq ▸ List.mem_map_of_mem Prod.fst hx)
        have : ¬ (f e2 = x.1) := fun heq => hx1 ((he1.trans heq).symm)
        simp [mapGet, this])
    show (mapValues rest).foldl (fun m v => mapSet m (f v) v)
        (acc ++ [(f e2, e2)]) = acc ++ (e1, e2) :: rest
    rw [hrest, ← he1]
    simp

/-- C7 amended: provided the maps are keyed by their record ids and at
least one group exists, writing the snapshot and reloading it
reproduces the identical state (same tags and groups with identical
attributes). -/
theorem C7_roundtrip (s : TagManager) (now : Nat) (fid : String)
    (hwfT : TagsWf s)
    (hgKeys : ∀ e ∈ s.groups, e.1 = e.2.id)
    (hgNodup : (s.groups.map Prod.fst).Nodup)
    (hne : s.groups ≠ []) :
    loadFromWorkspace (saveToWorkspace s now) fid = s := by
  have ht : (mapValues s.tags).foldl (fun m t => mapSet m t.id t)
      ([] : EntryMap TagItem) = s.tags := by
    have := foldl_mapSet_rebuild TagItem.id s.tags [] hwfT.1 hwfT.2
      (fun e _ => rfl)
    simpa using this
  have hgr : (mapValues s.groups).foldl (fun m g => mapSet m g.id g)
      ([] : EntryMap TagGroup) = s.groups := by
    have := foldl_mapSet_rebuild TagGroup.id s.groups [] hgKeys hgNodup
      (fun e _ => rfl)
    simpa using this
  simp only [loadFromWorkspace, saveToWorkspace]
  rw [ht, hgr]
  have hlen : (mapSize s.groups == 0) = false := by
    simp [mapSize, List.length_eq_zero, hne]
  rw [hlen]
  simp

/-- Counterexample to C7 as stated: a state with zero groups does not
round-trip identically, because loading creates a default group. -/
theorem C7_counterexample :
    loadFromWorkspace (saveToWorkspace emptyState 5) "gX" ≠ emptyState := by
  decide

/-- Witness for the amended C7 at a concrete one-group state. -/
theorem C7_witness :
    loadFromWorkspace (saveToWorkspace stateW 5) "gZ" = stateW := by
  exact C7_roundtrip stateW 5 "gZ" (by decide) (by decide) (by decide)
    (by decide)

/-- The prefix of the invalid-tag list that the confirm-individually
loop actually processes: everything before the first cancel answer. -/
def promptedTags (dec : TagItem → ConfirmChoice) :
    List TagItem → List TagItem
  | [] => []
  | t :: rest =>
    match dec t with
    | ConfirmChoice.cancelAll => []
    | _ => t :: promptedTags dec rest

/-- The tags the confirm-individually loop deletes: those of the
processed prefix answered with del. -/
def deletedTags (dec : TagItem → ConfirmChoice) (l : List TagItem) :
    List TagItem :=
  (promptedTags dec l).filter (fun t => dec t == ConfirmChoice.del)

theorem values_id_injective {s : TagManager} (hwf : TagsWf s) :
    ∀ t1 ∈ mapValues s.tags, ∀ t2 ∈ mapValues s.tags,
      t1.id = t2.id → t1 = t2 := by
  have hnd : ((mapValues s.tags).map TagItem.id).Nodup := by
    have heq : (mapValues s.tags).map TagItem.id = s.tags.map Prod.fst := by
      unfold mapValues
      rw [List.map_map]
      exact List.map_congr_left fun e he => (hwf.1 e he).symm
    rw [heq]
    exact hwf.2
  intro t1 h1 t2 h2 heq
  exact List.inj_on_of_nodup_map hnd h1 h2 heq

theorem cleanupLoop_spec (dec : TagItem → ConfirmChoice) (l : List TagItem) :
    ∀ s : TagManager,
      (cleanupLoop s l dec).1 = (deletedTags dec l).length ∧
      ((cleanupLoop s l dec).2).tags =
        s.tags.filter
          (fun e => !((deletedTags dec l).any (fun t => t.id == e.1))) := by
  induction l with
  | nil =>
    intro s
    simp [cleanupLoop, deletedTags, promptedTags]
  | cons t rest ih =>
    intro s
    cases hdec : dec t with
    | cancelAll =>
      simp [cleanupLoop, deletedTags, promptedTags, hdec]
    | keep =>
      have hdel : deletedTags dec (t :: rest) = deletedTags dec rest := by
        simp [deletedTags, promptedTags, hdec]
      simp only [cleanupLoop, hdec, hdel]
      exact ih s
    | del =>
      have hdel : deletedTags dec (t :: rest) = t :: deletedTags dec rest := by
        simp [deletedTags, promptedTags, hdec]
      have h := ih (removeTag s t.id).2
      simp only [cleanupLoop, hdec, hdel]
      constructor
      · simp [h.1]
      · rw [h.2, removeTag_tags]
        show (s.tags.filter fun e => e.1 != t.id).filter _ = _
        rw [List.filter_filter]
        apply List.filter_congr
        intro e he
        simp only [List.any_cons, Bool.not_or]
        by_cases he2 : e.1 = t.id
        · simp [he2]
        · have h1 : (e.1 == t.id) = false := beq_eq_false_iff_ne.2 he2
          have h2 : (t.id == e.1) = false :=
            beq_eq_false_iff_ne.2 (fun hh => he2 hh.symm)
          simp [bne, h1, h2]

theorem foldl_removeTag_tags (l : List TagItem) :
    ∀ s : TagManager,
      ((l.foldl (fun st t => (removeTag st t.id).2) s)).tags =
        s.tags.filter (fun e => !(l.any (fun t => t.id == e.1))) := by
  induction l with
  | nil =>
    intro s
    simp
  | cons t rest ih =>
    intro s
    simp only [List.foldl_cons]
    rw [ih ((removeTag s t.id).2), removeTag_tags]
    show (s.tags.filter fun e => e.1 != t.id).filter _ = _
    rw [List.filter_filter]
    apply List.filter_congr
    intro e he
    simp only [List.any_cons, Bool.not_or]
    by_cases he2 : e.1 = t.id
    · simp [he2]
    · have h1 : (e.1 == t.id) = false := beq_eq_false_iff_ne.2 he2
      have h2 : (t.id == e.1) = false :=
        beq_eq_false_iff_ne.2 (fun hh => he2 hh.symm)
      simp [bne, h1, h2]

/-- C9: with no invalid tag, cleanupInvalidTags returns 0 untouched for
every possible prompt answer; with at least one invalid tag, delete-all
returns their number and removes exactly them, confirm-individually
returns the number of tags deleted before the first cancel answer and
removes exactly those, and cancel returns 0 leaving the state as it
was. -/
theorem C9_cleanup_semantics (s : TagManager) (fsExists : String → Bool)
    (hwf : TagsWf s) :
    (invalidTags s fsExists = [] →
      ∀ choice, cleanupInvalidTags s fsExists choice = (0, s)) ∧
    (invalidTags s fsExists ≠ [] →
      ((cleanupInvalidTags s fsExists CleanupChoice.deleteAll).1 =
          (invalidTags s fsExists).length ∧
        ((cleanupInvalidTags s fsExists CleanupChoice.deleteAll).2).tags =
          s.tags.filter (fun e => fsExists e.2.filePath)) ∧
      (∀ dec : TagItem → ConfirmChoice,
        (cleanupInvalidTags s fsExists (CleanupChoice.confirmEach dec)).1 =
          (deletedTags dec (invalidTags s fsExists)).length ∧
        ((cleanupInvalidTags s fsExists (CleanupChoice.confirmEach dec)).2).tags =
          s.tags.filter (fun e =>
            !((deletedTags dec (invalidTags s fsExists)).any
              (fun t => t.id == e.1)))) ∧
      cleanupInvalidTags s fsExists CleanupChoice.cancel = (0, s)) := by
  constructor
  · intro hempty choice
    cases choice <;> simp [cleanupInvalidTags, hempty]
  · intro hne
    have hpos : 0 < (invalidTags s fsExists).length := List.length_pos.2 hne
    refine ⟨⟨?_, ?_⟩, ?_, ?_⟩
    · simp [cleanupInvalidTags, hpos]
    · simp only [cleanupInvalidTags, if_pos hpos]
      rw [foldl_removeTag_tags (invalidTags s fsExists) s]
      apply List.filter_congr
      intro e he
      cases hfe : fsExists e.2.filePath with
      | false =>
        have hmem : e.2 ∈ invalidTags s fsExists := by
          unfold invalidTags
          exact List.mem_filter_of_mem (mem_mapValues_of_mem he) (by simp [hfe])
        have hany : (invalidTags s fsExists).any (fun t => t.id == e.1) = true :=
          List.any_eq_true.2 ⟨e.2, hmem, by simp [(hwf.1 e he).symm]⟩
        simp [hany]
      | true =>
        cases hany : (invalidTags s fsExists).any (fun t => t.id == e.1) with
        | false => simp
        | true =>
          obtain ⟨t2, ht2, hid⟩ := List.any_eq_true.1 hany
          have ht2b : t2 ∈ (mapValues s.tags).filter
              (fun tag => !fsExists tag.filePath) := ht2
          have ht2v : t2 ∈ mapValues s.tags := (List.mem_filter.1 ht2b).1
          have ht2inv : (!fsExists t2.filePath) = true :=
            (List.mem_filter.1 ht2b).2
          have heq : t2 = e.2 :=
            values_id_injective hwf t2 ht2v e.2 (mem_mapValues_of_mem he)
              (by simpa [(hwf.1 e he).symm] using hid)
          rw [heq, hfe] at ht2inv
          cases ht2inv
    · intro dec
      simp only [cleanupInvalidTags, if_pos hpos]
      exact cleanupLoop_spec dec (invalidTags s fsExists) s
    · simp [cleanupInvalidTags, hpos]

/-- Witness for C9 at a concrete state with one invalid tag: delete-all
returns 1 and empties the tag map. -/
theorem C9_witness :
    (cleanupInvalidTags stateW (fun p => p == "/ok.js")
        CleanupChoice.deleteAll).1 = 1 ∧
      ((cleanupInvalidTags stateW (fun p => p == "/ok.js")
        CleanupChoice.deleteAll).2).tags = [] := by
  have h := (C9_cleanup_semantics stateW (fun p => p == "/ok.js")
    (by decide)).2 (by decide)
  refine ⟨?_, ?_⟩
  · rw [h.1.1]
    decide
  · rw [h.1.2]
    decide

end TagFinder
